import Mathlib

/-!
# siliconResolution.C : strip-detector resolution Monte Carlo

A shallow embedding of the ROOT script `siliconResolution(int numEvt, string fileName)`.

* C++ `double` values are idealised as elements of a linearly ordered field `K`
  (the rationals for evaluation, the reals for the analytic statements).
* The only operation of the script that can leave the finite numbers is the centroid
  division `xTot/chTot`; it is embedded by `fdiv`, which returns `none` when the divisor is
  zero (IEEE-754 gives NaN for `0/0` and an infinity otherwise).
* `TRandom` is an explicit generator state threaded through every draw.
* `TMath::Erf` / `TMath::Erfc` are a parameter of the charge model; over the reals they are
  instantiated by the integrals quoted in the source comments (lines 111-114).
* A `TH1F` is represented by the sequence of arguments of its `Fill` calls.
-/

namespace SiliconResolution

/-! ## Collaborators from ROOT -/

/-- The two `TMath` functions the script calls. -/
structure TMath (K : Type) where
  /-- Stands for `TMath::Erf`. -/
  Erf : K → K
  /-- Stands for `TMath::Erfc`. -/
  Erfc : K → K

/-- The two `TRandom` methods the script calls, as functions of the generator state `G`. -/
structure TRandom (G K : Type) where
  /-- Stands for `TRandom::Uniform(x1)`: a draw and the next generator state. -/
  Uniform : K → G → K × G
  /-- Stands for `TRandom::Gaus(mean, sigma)`: a draw and the next generator state. -/
  Gaus : K → K → G → K × G

/-- A histogram, kept as the arguments of its successive `Fill` calls
(`none` is a non-finite argument). `TH1::Fill` counts every call as an entry, whatever
bin, underflow or overflow bucket the argument lands in. -/
structure TH1F (K : Type) where
  /-- Arguments of the `Fill` calls so far, oldest first. -/
  fills : List (Option K)

/-- One `Fill` call. -/
def TH1F.Fill {K : Type} (h : TH1F K) (v : Option K) : TH1F K :=
  ⟨h.fills ++ [v]⟩

/-- Number of entries of a histogram. -/
def TH1F.GetEntries {K : Type} (h : TH1F K) : ℕ :=
  h.fills.length

section Embedding

variable {K : Type} [LinearOrderedField K]

/-! ## Constants (lines 81-85) -/

/-- Line 81: `double sigmaM = 1.0;` (declared, never read afterwards). -/
def sigmaM : K := 1.0

/-- Line 82: `double thresh1 = 0.2;`. -/
def thresh1 : K := 0.2

/-- Line 83: `double thresh2 = 0.1;`. -/
def thresh2 : K := 0.1

/-- Line 84: `double sigmaN1 = 0.05;`. -/
def sigmaN1 : K := 0.05

/-- Line 85: `double sigmaN2 = 0.025;`. -/
def sigmaN2 : K := 0.025

/-! ## Double division -/

/-- Division of doubles: a finite quotient, or `none` when the divisor is zero. -/
def fdiv (a b : K) : Option K :=
  if b = 0 then none else some (a / b)

/-! ## Readouts of parts a and b (lines 92-99) -/

/-- Line 92: `double xmeasa = 0;`. -/
def xmeasa : K := 0

/-- Lines 95-98: the three-level readout. -/
def xmeasb (xtrue : K) : K :=
  if |xtrue| < 1.0 / 3.0 then 0
  else if xtrue > 0 then 0.5
  else -0.5

/-! ## Strip charge (lines 107-118) -/

/-- Line 107: `lowEdge = -3.5 + (double) strip - xtrue`. -/
def lowEdge (strip : ℕ) (xtrue : K) : K :=
  -3.5 + (strip : K) - xtrue

/-- Line 108: `highEdge = -3.5 + (double) strip + 1 - xtrue`. -/
def highEdge (strip : ℕ) (xtrue : K) : K :=
  -3.5 + (strip : K) + 1 - xtrue

/-- Lines 115-116: the integral below the low edge. -/
def int0 (m : TMath K) (lowEdge : K) : K :=
  if lowEdge < 0 then 0.5 * m.Erfc |lowEdge|
  else 0.5 + 0.5 * m.Erf lowEdge

/-- Lines 117-118: the integral above the high edge. -/
def int1 (m : TMath K) (highEdge : K) : K :=
  if highEdge > 0 then 0.5 * m.Erfc |highEdge|
  else 0.5 + 0.5 * m.Erf |highEdge|

/-- The noise-free part `1.0-int0-int1` of `ch1` and `ch2` (lines 122, 124), as a
function of the two edges. -/
def chargeOfEdges (m : TMath K) (lowEdge highEdge : K) : K :=
  1.0 - int0 m lowEdge - int1 m highEdge

/-- The noise-free charge of strip `strip` for true position `xtrue`
(lines 107-118 followed by `1.0-int0-int1`). -/
def charge (m : TMath K) (xtrue : K) (strip : ℕ) : K :=
  chargeOfEdges m (lowEdge strip xtrue) (highEdge strip xtrue)

/-! ## Threshold and centroid sums (lines 101-104, 126-133) -/

/-- The pair `xTot`, `chTot` of one centroid model. -/
structure Sums (K : Type) where
  /-- Charge-weighted sum of strip centres. -/
  xTot : K
  /-- Total charge. -/
  chTot : K

/-- Lines 126 and 129: `if(ch<thresh) ch=0;`. -/
def applyThresh (thresh ch : K) : K :=
  if ch < thresh then 0 else ch

/-- Lines 126-128 (and 129-131): threshold the strip charge, then add it to both sums. -/
def accumulate (thresh : K) (s : Sums K) (strip : ℕ) (ch : K) : Sums K :=
  let ch := applyThresh thresh ch
  { chTot := s.chTot + ch
    xTot := s.xTot + ch * (-3.0 + (strip : K)) }

/-- The sums after the first `n` strips, for given noisy strip charges `ch`. -/
def sumsUpTo (thresh : K) (ch : ℕ → K) (n : ℕ) : Sums K :=
  (List.range n).foldl (fun s strip => accumulate thresh s strip (ch strip)) ⟨0, 0⟩

/-- The sums after the strip loop `for(int strip=0; strip<7; strip++)`. -/
def sums (thresh : K) (ch : ℕ → K) : Sums K :=
  sumsUpTo thresh ch 7

/-- Lines 133 and 135: `xTot/chTot`, with no test on `chTot`. -/
def centroid (thresh : K) (ch : ℕ → K) : Option K :=
  fdiv (sums thresh ch).xTot (sums thresh ch).chTot

/-! ## The strip loop with its random draws (lines 101-132) -/

/-- State of the strip loop: both pairs of sums and the generator. -/
structure StripState (G K : Type) where
  /-- `xTot1`, `chTot1`. -/
  s1 : Sums K
  /-- `xTot2`, `chTot2`. -/
  s2 : Sums K
  /-- Generator state. -/
  gen : G

/-- Body of the strip loop, lines 106-131. -/
def stripBody {G : Type} (m : TMath K) (rng : TRandom G K) (xtrue : K)
    (st : StripState G K) (strip : ℕ) : StripState G K :=
  let lowEdge : K := lowEdge strip xtrue
  let highEdge : K := highEdge strip xtrue
  let int0 := int0 m lowEdge
  let int1 := int1 m highEdge
  let r1 := rng.Gaus 0.0 sigmaN1 st.gen
  let ch1 := 1.0 - int0 - int1 + r1.1
  let r2 := rng.Gaus 0.0 sigmaN2 r1.2
  let ch2 := 1.0 - int0 - int1 + r2.1
  { s1 := accumulate thresh1 st.s1 strip ch1
    s2 := accumulate thresh2 st.s2 strip ch2
    gen := r2.2 }

/-- The strip loop, lines 101-132. -/
def stripLoop {G : Type} (m : TMath K) (rng : TRandom G K) (xtrue : K) (g : G) :
    StripState G K :=
  (List.range 7).foldl (stripBody m rng xtrue) ⟨⟨0, 0⟩, ⟨0, 0⟩, g⟩

/-- Generator state on entry to iteration `n` of the strip loop: each iteration makes
the two `Gaus` draws of lines 121 and 123, in that order. -/
def genAt {G : Type} (rng : TRandom G K) (g : G) : ℕ → G
  | 0 => g
  | n + 1 => (rng.Gaus 0.0 sigmaN2 (rng.Gaus 0.0 sigmaN1 (genAt rng g n)).2).2

/-- Line 121: `noise1` of strip `strip`. -/
def noise1 {G : Type} (rng : TRandom G K) (g : G) (strip : ℕ) : K :=
  (rng.Gaus 0.0 sigmaN1 (genAt rng g strip)).1

/-- Line 123: `noise2` of strip `strip`. -/
def noise2 {G : Type} (rng : TRandom G K) (g : G) (strip : ℕ) : K :=
  (rng.Gaus 0.0 sigmaN2 (rng.Gaus 0.0 sigmaN1 (genAt rng g strip)).2).1

/-- Line 122: `ch1 = 1.0-int0-int1+noise1`, before the threshold. -/
def ch1 {G : Type} (m : TMath K) (rng : TRandom G K) (xtrue : K) (g : G) (strip : ℕ) : K :=
  charge m xtrue strip + noise1 rng g strip

/-- Line 124: `ch2 = 1.0-int0-int1+noise2`, before the threshold. -/
def ch2 {G : Type} (m : TMath K) (rng : TRandom G K) (xtrue : K) (g : G) (strip : ℕ) : K :=
  charge m xtrue strip + noise2 rng g strip

/-! ## The event loop (lines 89-138) -/

/-- The four histograms and the generator. -/
structure RunState (G K : Type) where
  /-- Histogram "Parta". -/
  hista : TH1F K
  /-- Histogram "Partb". -/
  histb : TH1F K
  /-- Histogram "Partc.i". -/
  histc : TH1F K
  /-- Histogram "Partc.ii". -/
  histd : TH1F K
  /-- Generator state. -/
  gen : G

/-- Line 91: `xtrue = random->Uniform(1.0)-0.5`. -/
def drawXtrue {G : Type} (rng : TRandom G K) (g : G) : K × G :=
  ((rng.Uniform 1.0 g).1 - 0.5, (rng.Uniform 1.0 g).2)

/-- Body of the event loop, lines 90-136. -/
def eventBody {G : Type} (m : TMath K) (rng : TRandom G K) (st : RunState G K) :
    RunState G K :=
  let d := drawXtrue rng st.gen
  let xtrue := d.1
  let loop := stripLoop m rng xtrue d.2
  let xmeasc1 := fdiv loop.s1.xTot loop.s1.chTot
  let xmeasc2 := fdiv loop.s2.xTot loop.s2.chTot
  { hista := st.hista.Fill (some (xmeasa - xtrue))
    histb := st.histb.Fill (some (xmeasb xtrue - xtrue))
    histc := st.histc.Fill (xmeasc1.map (fun v => v - xtrue))
    histd := st.histd.Fill (xmeasc2.map (fun v => v - xtrue))
    gen := loop.gen }

/-- Run state after `n` events, starting from empty histograms. -/
def runEvents {G : Type} (m : TMath K) (rng : TRandom G K) (g : G) : ℕ → RunState G K
  | 0 => ⟨⟨[]⟩, ⟨[]⟩, ⟨[]⟩, ⟨[]⟩, g⟩
  | n + 1 => eventBody m rng (runEvents m rng g n)

/-- The loop `for (int i=0; i<numEvt; i++)` of `siliconResolution`: `numEvt` is a C `int`
and the body runs `numEvt` times when it is positive, not at all otherwise. -/
def siliconResolution {G : Type} (m : TMath K) (rng : TRandom G K) (g : G) (numEvt : ℤ) :
    RunState G K :=
  runEvents m rng g numEvt.toNat

/-- True position of event number `i` (counted from 0). -/
def xtrueOf {G : Type} (m : TMath K) (rng : TRandom G K) (g : G) (i : ℕ) : K :=
  (drawXtrue rng (runEvents m rng g i).gen).1

end Embedding

/-! ## The error functions over the reals (source comment, lines 111-114) -/

section RealErf

open MeasureTheory Set Real

/-- Line 112: `Erf(x) = (2/sqrt(pi)) Integral(exp(-t^2))dt between 0 and x`. -/
noncomputable def erf (x : ℝ) : ℝ :=
  2 / √π * ∫ t in (0:ℝ)..x, Real.exp (-t ^ 2)

/-- Line 114: `Erfc(x) = (2/sqrt(pi)) Integral(exp(-t^2))dt between x and infinity`. -/
noncomputable def erfc (x : ℝ) : ℝ :=
  2 / √π * ∫ t in Set.Ioi x, Real.exp (-t ^ 2)

/-- The `TMath` functions over the reals. -/
noncomputable def realTMath : TMath ℝ :=
  ⟨erf, erfc⟩

/-- The standard normal cumulative distribution function (mean 0, standard deviation 1),
in the form the specification gives: `Phi(t) = (1 + erf(t / sqrt 2)) / 2`. -/
noncomputable def Phi (t : ℝ) : ℝ :=
  (1 + erf (t / √2)) / 2

end RealErf

section SpecSide

variable {K : Type} [LinearOrderedField K]

/-- The cumulative distribution `F(t) = (1 + erf t)/2` of the specification's
"CDF difference" reading of the strip charge. -/
def naiveCdf (m : TMath K) (t : K) : K :=
  (1 + m.Erf t) / 2

/-- The strip charge as the specification words it: the CDF difference between the high
and the low edge. -/
def naiveCharge (m : TMath K) (lowEdge highEdge : K) : K :=
  naiveCdf m highEdge - naiveCdf m lowEdge

/-- A generator that returns `0` from every draw and never changes state. -/
def zeroRng : TRandom Unit K :=
  ⟨fun _ g => (0, g), fun _ _ g => (0, g)⟩

end SpecSide


/-! ## Algebra of the erf/erfc branches -/

section Branches

variable {K : Type} [LinearOrderedField K]

/-- The two facts about `TMath::Erf`/`TMath::Erfc` the branch analysis relies on. -/
structure TMath.Lawful (m : TMath K) : Prop where
  /-- The error function is odd. -/
  erf_neg : ∀ t, m.Erf (-t) = -m.Erf t
  /-- The complementary error function is one minus the error function. -/
  erfc_eq : ∀ t, m.Erfc t = 1 - m.Erf t

theorem int0_eq (m : TMath K) (hm : m.Lawful) (lo : K) :
    int0 m lo = (1 + m.Erf lo) / 2 := by
  unfold int0
  split_ifs with h
  · rw [abs_of_neg h, hm.erfc_eq, hm.erf_neg]
    norm_num
    ring
  · norm_num
    ring

theorem int1_eq (m : TMath K) (hm : m.Lawful) (hi : K) :
    int1 m hi = (1 - m.Erf hi) / 2 := by
  unfold int1
  split_ifs with h
  · rw [abs_of_pos h, hm.erfc_eq]
    norm_num
    ring
  · rw [abs_of_nonpos (not_lt.mp h), hm.erf_neg]
    norm_num
    ring

theorem chargeOfEdges_eq (m : TMath K) (hm : m.Lawful) (lo hi : K) :
    chargeOfEdges m lo hi = (m.Erf hi - m.Erf lo) / 2 := by
  unfold chargeOfEdges
  rw [int0_eq m hm, int1_eq m hm]
  norm_num
  ring

theorem charge_eq (m : TMath K) (hm : m.Lawful) (x : K) (s : ℕ) :
    charge m x s = (m.Erf (highEdge s x) - m.Erf (lowEdge s x)) / 2 :=
  chargeOfEdges_eq m hm _ _

theorem highEdge_eq (s : ℕ) (x : K) : highEdge s x = lowEdge s x + 1 := by
  unfold highEdge lowEdge
  ring

end Branches

/-! ## The centroid sums -/

section Centroid

variable {K : Type} [LinearOrderedField K]

theorem sumsUpTo_succ (t : K) (ch : ℕ → K) (n : ℕ) :
    sumsUpTo t ch (n + 1) = accumulate t (sumsUpTo t ch n) n (ch n) := by
  simp [sumsUpTo, List.range_succ, List.foldl_append]

theorem chTot_sumsUpTo (t : K) (ch : ℕ → K) (n : ℕ) :
    (sumsUpTo t ch n).chTot = ∑ s in Finset.range n, applyThresh t (ch s) := by
  induction n with
  | zero => simp [sumsUpTo]
  | succ n ih => rw [sumsUpTo_succ, Finset.sum_range_succ, ← ih]; rfl

theorem xTot_sumsUpTo (t : K) (ch : ℕ → K) (n : ℕ) :
    (sumsUpTo t ch n).xTot
      = ∑ s in Finset.range n, applyThresh t (ch s) * (-3 + (s : K)) := by
  induction n with
  | zero => simp [sumsUpTo]
  | succ n ih =>
    rw [sumsUpTo_succ, Finset.sum_range_succ, ← ih]
    simp [accumulate]
    norm_num

theorem applyThresh_cases (t c : K) :
    (c < t ∧ applyThresh t c = 0) ∨ (t ≤ c ∧ applyThresh t c = c) := by
  unfold applyThresh
  split_ifs with h
  · exact Or.inl ⟨h, rfl⟩
  · exact Or.inr ⟨not_lt.mp h, rfl⟩

theorem applyThresh_nonneg {t : K} (ht : 0 < t) (c : K) : 0 ≤ applyThresh t c := by
  rcases applyThresh_cases t c with ⟨_, h⟩ | ⟨h1, h⟩ <;> rw [h]
  exact le_trans ht.le h1

theorem applyThresh_eq_zero_iff {t : K} (ht : 0 < t) (c : K) :
    applyThresh t c = 0 ↔ c < t := by
  rcases applyThresh_cases t c with ⟨h1, h⟩ | ⟨h1, h⟩
  · simp [h, h1]
  · rw [h]
    constructor
    · intro h0
      rw [h0] at h1
      exact absurd ht (not_lt.mpr h1)
    · intro h2
      exact absurd h2 (not_lt.mpr h1)

theorem chTot_nonneg {t : K} (ht : 0 < t) (ch : ℕ → K) (n : ℕ) :
    0 ≤ (sumsUpTo t ch n).chTot := by
  rw [chTot_sumsUpTo]
  exact Finset.sum_nonneg (fun s _ => applyThresh_nonneg ht (ch s))

theorem chTot_eq_zero_iff {t : K} (ht : 0 < t) (ch : ℕ → K) (n : ℕ) :
    (sumsUpTo t ch n).chTot = 0 ↔ ∀ s < n, ch s < t := by
  rw [chTot_sumsUpTo,
    Finset.sum_eq_zero_iff_of_nonneg (fun s _ => applyThresh_nonneg ht (ch s))]
  simp only [Finset.mem_range, applyThresh_eq_zero_iff ht]

theorem le_chTot {t : K} (ht : 0 < t) (ch : ℕ → K) (n s : ℕ) (hs : s < n) :
    applyThresh t (ch s) ≤ (sumsUpTo t ch n).chTot := by
  rw [chTot_sumsUpTo]
  exact Finset.single_le_sum (f := fun s => applyThresh t (ch s))
    (fun i _ => applyThresh_nonneg ht (ch i)) (Finset.mem_range.mpr hs)

theorem fdiv_eq_none_iff (a b : K) : fdiv a b = none ↔ b = 0 := by
  unfold fdiv
  split_ifs with h <;> simp [h]

theorem fdiv_of_ne_zero (a : K) {b : K} (h : b ≠ 0) : fdiv a b = some (a / b) := by
  simp [fdiv, h]

theorem centroid_eq_none_iff {t : K} (ht : 0 < t) (ch : ℕ → K) :
    centroid t ch = none ↔ ∀ s < 7, ch s < t := by
  unfold centroid
  rw [fdiv_eq_none_iff]
  exact chTot_eq_zero_iff ht ch 7

theorem thresh1_pos : (0 : K) < thresh1 := by
  unfold thresh1
  norm_num

theorem thresh2_pos : (0 : K) < thresh2 := by
  unfold thresh2
  norm_num

/-- Weighted bound: if every surviving strip centre is at least `lo`, then
`lo * chTot ≤ xTot`. -/
theorem lo_mul_chTot_le {t : K} (ht : 0 < t) (ch : ℕ → K) (n : ℕ) (lo : K)
    (h : ∀ s < n, t ≤ ch s → lo ≤ -3 + (s : K)) :
    lo * (sumsUpTo t ch n).chTot ≤ (sumsUpTo t ch n).xTot := by
  rw [chTot_sumsUpTo, xTot_sumsUpTo, Finset.mul_sum]
  apply Finset.sum_le_sum
  intro s hs
  rcases applyThresh_cases t (ch s) with ⟨_, h0⟩ | ⟨h1, _⟩
  · simp [h0]
  · rw [mul_comm]
    exact mul_le_mul_of_nonneg_left (h s (Finset.mem_range.mp hs) h1)
      (applyThresh_nonneg ht (ch s))

/-- Weighted bound: if every surviving strip centre is at most `hi`, then
`xTot ≤ hi * chTot`. -/
theorem xTot_le_hi_mul {t : K} (ht : 0 < t) (ch : ℕ → K) (n : ℕ) (hi : K)
    (h : ∀ s < n, t ≤ ch s → -3 + (s : K) ≤ hi) :
    (sumsUpTo t ch n).xTot ≤ hi * (sumsUpTo t ch n).chTot := by
  rw [chTot_sumsUpTo, xTot_sumsUpTo, Finset.mul_sum]
  apply Finset.sum_le_sum
  intro s hs
  rcases applyThresh_cases t (ch s) with ⟨_, h0⟩ | ⟨h1, _⟩
  · simp [h0]
  · rw [mul_comm hi]
    exact mul_le_mul_of_nonneg_left (h s (Finset.mem_range.mp hs) h1)
      (applyThresh_nonneg ht (ch s))

/-- The strip loop computes, for each model, the sums of its noisy strip charges. -/
theorem stripLoop_upTo {G : Type} (m : TMath K) (rng : TRandom G K) (x : K) (g : G)
    (n : ℕ) :
    (List.range n).foldl (stripBody m rng x) ⟨⟨0, 0⟩, ⟨0, 0⟩, g⟩
      = ⟨sumsUpTo thresh1 (ch1 m rng x g) n, sumsUpTo thresh2 (ch2 m rng x g) n,
          genAt rng g n⟩ := by
  induction n with
  | zero => simp [sumsUpTo, genAt]
  | succ n ih =>
    rw [List.range_succ, List.foldl_append, ih, sumsUpTo_succ, sumsUpTo_succ]
    rfl

theorem stripLoop_eq {G : Type} (m : TMath K) (rng : TRandom G K) (x : K) (g : G) :
    stripLoop m rng x g
      = ⟨sums thresh1 (ch1 m rng x g), sums thresh2 (ch2 m rng x g), genAt rng g 7⟩ :=
  stripLoop_upTo m rng x g 7

end Centroid

/-! ## Properties of the real error functions -/

section RealErfLemmas

open MeasureTheory Set Real

theorem gauss_continuous : Continuous (fun t : ℝ => Real.exp (-t ^ 2)) := by
  continuity

theorem gauss_intervalIntegrable (a b : ℝ) :
    IntervalIntegrable (fun t : ℝ => Real.exp (-t ^ 2)) volume a b :=
  gauss_continuous.intervalIntegrable a b

theorem gauss_integrable : Integrable (fun t : ℝ => Real.exp (-t ^ 2)) := by
  have h := integrable_exp_neg_mul_sq (b := 1) one_pos
  simpa using h

theorem gauss_integral_Ioi_zero : ∫ t in Set.Ioi (0:ℝ), Real.exp (-t ^ 2) = √π / 2 := by
  have h := integral_gaussian_Ioi 1
  simpa using h

theorem two_div_sqrt_pi_pos : 0 < 2 / √π := by positivity

theorem erf_neg (x : ℝ) : erf (-x) = -erf x := by
  unfold erf
  have h := intervalIntegral.integral_comp_neg (a := 0) (b := x) (fun t : ℝ => Real.exp (-t ^ 2))
  simp only [neg_sq, neg_zero] at h
  rw [intervalIntegral.integral_symm (-x) 0, ← h]
  ring

theorem erf_sub (a b : ℝ) : erf b - erf a = 2 / √π * ∫ t in a..b, Real.exp (-t ^ 2) := by
  unfold erf
  rw [← mul_sub, intervalIntegral.integral_interval_sub_left (gauss_intervalIntegrable 0 b) (gauss_intervalIntegrable 0 a)]

theorem gauss_integral_Ioi_sub (a b : ℝ) :
    (∫ t in Set.Ioi a, Real.exp (-t ^ 2)) - ∫ t in Set.Ioi b, Real.exp (-t ^ 2)
      = ∫ t in a..b, Real.exp (-t ^ 2) := by
  wlog hab : a ≤ b generalizing a b
  · rw [intervalIntegral.integral_symm, ← this b a (le_of_not_le hab), neg_sub]
  rw [sub_eq_iff_eq_add, intervalIntegral.integral_of_le hab,
    ← setIntegral_union (Set.Ioc_disjoint_Ioi le_rfl) measurableSet_Ioi
      gauss_integrable.integrableOn gauss_integrable.integrableOn,
    Set.Ioc_union_Ioi_eq_Ioi hab]

theorem erfc_eq (x : ℝ) : erfc x = 1 - erf x := by
  unfold erfc erf
  have h := gauss_integral_Ioi_sub 0 x
  rw [gauss_integral_Ioi_zero] at h
  have hpi : √π ≠ 0 := by positivity
  have : ∫ t in Ioi x, Real.exp (-t ^ 2) = √π / 2 - ∫ t in (0:ℝ)..x, Real.exp (-t ^ 2) := by
    linarith
  rw [this]
  field_simp
  ring

theorem erf_strictMono : StrictMono erf := by
  intro a b hab
  have h := erf_sub a b
  have hpos : 0 < ∫ t in a..b, Real.exp (-t ^ 2) :=
    intervalIntegral.intervalIntegral_pos_of_pos (gauss_intervalIntegrable a b) (fun t => Real.exp_pos _) hab
  have := mul_pos two_div_sqrt_pi_pos hpos
  linarith

theorem erfc_nonneg (x : ℝ) : 0 ≤ erfc x := by
  unfold erfc
  apply mul_nonneg two_div_sqrt_pi_pos.le
  exact setIntegral_nonneg measurableSet_Ioi (fun t _ => (Real.exp_pos _).le)

theorem erf_le_one (x : ℝ) : erf x ≤ 1 := by
  have h1 := erfc_eq x
  have h2 := erfc_nonneg x
  linarith

theorem erf_zero : erf 0 = 0 := by
  simp [erf]

/-- Subadditivity on the non-negative half line. -/
theorem erf_add_le {a b : ℝ} (ha : 0 ≤ a) (hb : 0 ≤ b) : erf (a + b) ≤ erf a + erf b := by
  have h1 := erf_sub b (a + b)
  have h2 : ∫ t in b..(a + b), Real.exp (-t ^ 2) = ∫ t in (0:ℝ)..a, Real.exp (-(t + b) ^ 2) := by
    have := intervalIntegral.integral_comp_add_right (a := 0) (b := a)
      (fun t : ℝ => Real.exp (-t ^ 2)) b
    simp only [zero_add] at this
    exact this.symm
  have h3 : ∫ t in (0:ℝ)..a, Real.exp (-(t + b) ^ 2) ≤ ∫ t in (0:ℝ)..a, Real.exp (-t ^ 2) := by
    apply intervalIntegral.integral_mono_on ha
    · exact (by continuity : Continuous fun t : ℝ => Real.exp (-(t + b) ^ 2)).intervalIntegrable 0 a
    · exact gauss_intervalIntegrable 0 a
    · intro t ht
      apply Real.exp_le_exp.mpr
      have := ht.1
      nlinarith [mul_nonneg this hb, sq_nonneg b]
  have h4 : erf a = 2 / √π * ∫ t in (0:ℝ)..a, Real.exp (-t ^ 2) := rfl
  have := mul_le_mul_of_nonneg_left h3 two_div_sqrt_pi_pos.le
  rw [h2] at h1
  linarith

theorem sqrt_pi_lt : √π < 1.7725 := by
  rw [Real.sqrt_lt' (by norm_num)]
  have := Real.pi_lt_d6
  norm_num
  linarith

theorem sqrt_pi_gt : 1.7724 < √π := by
  rw [Real.lt_sqrt (by norm_num)]
  have := Real.pi_gt_d6
  norm_num
  linarith

/-- A lower bound for the value at 1. -/
theorem erf_one_gt : 0.4 < erf 1 := by
  have h1 : (∫ t in (0:ℝ)..1, (1 - t ^ 2)) ≤ ∫ t in (0:ℝ)..1, Real.exp (-t ^ 2) := by
    apply intervalIntegral.integral_mono_on zero_le_one
    · exact (by continuity : Continuous fun t : ℝ => 1 - t ^ 2).intervalIntegrable 0 1
    · exact gauss_intervalIntegrable 0 1
    · intro t _
      have := Real.add_one_le_exp (-t ^ 2)
      linarith
  have h2 : (∫ t in (0:ℝ)..1, (1 - t ^ 2)) = 2 / 3 := by
    rw [intervalIntegral.integral_sub (by simp) (by simp)]
    simp
    norm_num
  rw [h2] at h1
  have h3 : erf 1 = 2 / √π * ∫ t in (0:ℝ)..1, Real.exp (-t ^ 2) := rfl
  have h4 := mul_le_mul_of_nonneg_left h1 two_div_sqrt_pi_pos.le
  have h5 : (0.6 : ℝ) < 2 / √π := by
    rw [lt_div_iff₀ (by positivity)]
    have := sqrt_pi_lt
    norm_num at this ⊢
    linarith
  rw [h3]
  nlinarith

theorem exp_lin_integral_Ioi : ∫ t in Set.Ioi (3:ℝ), Real.exp (-(6 * t)) = Real.exp (-18) / 6 := by
  have h := integral_comp_mul_left_Ioi (fun y : ℝ => Real.exp (-y)) 3 (show (0:ℝ) < 6 by norm_num)
  rw [h, integral_exp_neg_Ioi]
  norm_num
  ring

theorem exp_lin_integrableOn : IntegrableOn (fun t : ℝ => Real.exp (-(6 * t))) (Set.Ioi 3) := by
  have h := exp_neg_integrableOn_Ioi 3 (show (0:ℝ) < 6 by norm_num)
  simpa using h

theorem gauss_tail_three : ∫ t in Set.Ioi (3:ℝ), Real.exp (-t ^ 2) ≤ Real.exp (-9) / 6 := by
  have hmono : ∫ t in Set.Ioi (3:ℝ), Real.exp (-t ^ 2)
      ≤ ∫ t in Set.Ioi (3:ℝ), Real.exp 9 * Real.exp (-(6 * t)) := by
    apply setIntegral_mono_on gauss_integrable.integrableOn
      (exp_lin_integrableOn.const_mul _) measurableSet_Ioi
    intro t _
    rw [← Real.exp_add]
    apply Real.exp_le_exp.mpr
    nlinarith [sq_nonneg (t - 3)]
  rw [integral_mul_left, exp_lin_integral_Ioi] at hmono
  have : Real.exp 9 * (Real.exp (-18) / 6) = Real.exp (-9) / 6 := by
    rw [← mul_div_assoc, ← Real.exp_add]
    norm_num
  rwa [this] at hmono

theorem exp_nine_gt : 8103 < Real.exp 9 := by
  have h1 := Real.exp_one_gt_d9
  have h2 : Real.exp 9 = Real.exp 1 ^ 9 := by
    rw [← Real.exp_nat_mul]
    norm_num
  rw [h2]
  calc (8103 : ℝ) < 2.7182818283 ^ 9 := by norm_num
    _ < Real.exp 1 ^ 9 := pow_lt_pow_left₀ h1 (by norm_num) (by norm_num)

theorem erfc_three_lt : erfc 3 < 0.0000233 := by
  have h1 := gauss_tail_three
  have h2 : Real.exp (-9) < 1 / 8103 := by
    rw [Real.exp_neg, inv_eq_one_div]
    exact one_div_lt_one_div_of_lt (by norm_num) exp_nine_gt
  have h3 : 2 / √π < 2 / 1.7724 :=
    div_lt_div_of_pos_left (by norm_num) (by norm_num) sqrt_pi_gt
  have h4 : ∫ t in Set.Ioi (3:ℝ), Real.exp (-t ^ 2) < 1 / 8103 / 6 := by
    linarith
  have h5 : 0 ≤ ∫ t in Set.Ioi (3:ℝ), Real.exp (-t ^ 2) :=
    setIntegral_nonneg measurableSet_Ioi (fun t _ => (Real.exp_pos _).le)
  unfold erfc
  calc 2 / √π * ∫ t in Set.Ioi (3:ℝ), Real.exp (-t ^ 2)
      ≤ 2 / 1.7724 * ∫ t in Set.Ioi (3:ℝ), Real.exp (-t ^ 2) :=
        mul_le_mul_of_nonneg_right h3.le h5
    _ < 2 / 1.7724 * (1 / 8103 / 6) := mul_lt_mul_of_pos_left h4 (by norm_num)
    _ < 0.0000233 := by norm_num

theorem realTMath_lawful : realTMath.Lawful :=
  ⟨erf_neg, erfc_eq⟩

end RealErfLemmas

/-! ## Event loop lemmas -/

section EventLoop

variable {K : Type} [LinearOrderedField K] {G : Type}

theorem runEvents_hista (m : TMath K) (rng : TRandom G K) (g : G) (n : ℕ) :
    (runEvents m rng g n).hista.fills
      = (List.range n).map (fun i => some (-(xtrueOf m rng g i))) := by
  induction n with
  | zero => simp [runEvents]
  | succ n ih =>
    rw [List.range_succ, List.map_append, ← ih]
    simp [runEvents, eventBody, TH1F.Fill, xtrueOf, xmeasa]

theorem runEvents_entries (m : TMath K) (rng : TRandom G K) (g : G) (n : ℕ) :
    (runEvents m rng g n).hista.GetEntries = n ∧
    (runEvents m rng g n).histb.GetEntries = n ∧
    (runEvents m rng g n).histc.GetEntries = n ∧
    (runEvents m rng g n).histd.GetEntries = n := by
  induction n with
  | zero => simp [runEvents, TH1F.GetEntries]
  | succ n ih =>
    obtain ⟨ha, hb, hc, hd⟩ := ih
    simp only [TH1F.GetEntries] at ha hb hc hd
    simp [runEvents, eventBody, TH1F.Fill, TH1F.GetEntries, ha, hb, hc, hd]

theorem one_third_eq : (1.0 / 3.0 : K) = 1 / 3 := by
  norm_num

end EventLoop

/-! ## Zero-noise runs over the reals -/

section ZeroNoise

variable {G : Type}

theorem lowEdge_succ (s : ℕ) (x : ℝ) : lowEdge (s + 1) x = highEdge s x := by
  unfold lowEdge highEdge
  push_cast
  ring

theorem charge_real (x : ℝ) (s : ℕ) :
    charge realTMath x s = (erf (lowEdge (s + 1) x) - erf (lowEdge s x)) / 2 := by
  rw [charge_eq realTMath realTMath_lawful, lowEdge_succ]
  rfl

theorem charge_real_nonneg (x : ℝ) (s : ℕ) : 0 ≤ charge realTMath x s := by
  rw [charge_real, lowEdge_succ, highEdge_eq]
  have := erf_strictMono.monotone (show lowEdge s x ≤ lowEdge s x + 1 by linarith)
  linarith

theorem charge_real_sum (x : ℝ) (n : ℕ) :
    ∑ s in Finset.range n, charge realTMath x s
      = (erf (lowEdge n x) - erf (lowEdge 0 x)) / 2 := by
  simp_rw [charge_real]
  rw [← Finset.sum_div, Finset.sum_range_sub (fun s => erf (lowEdge s x))]

theorem charge_central (x : ℝ) :
    charge realTMath x 3 = (erf (0.5 - x) + erf (0.5 + x)) / 2 := by
  rw [charge_real]
  have h1 : lowEdge (3 + 1) x = 0.5 - x := by
    unfold lowEdge
    norm_num
  have h2 : lowEdge 3 x = -(0.5 + x) := by
    unfold lowEdge
    norm_num
    ring
  rw [h1, h2, erf_neg]
  ring

theorem charge_central_ge (x : ℝ) (h1 : -0.5 ≤ x) (h2 : x < 0.5) :
    erf 1 / 2 ≤ charge realTMath x 3 := by
  rw [charge_central]
  have h := erf_add_le (a := 0.5 - x) (b := 0.5 + x) (by linarith) (by linarith)
  have e : (0.5 - x) + (0.5 + x) = 1 := by ring
  rw [e] at h
  linarith

theorem ch1_zero_noise (rng : TRandom G ℝ) (hz : ∀ a b g, (rng.Gaus a b g).1 = 0)
    (x : ℝ) (g : G) (s : ℕ) : ch1 realTMath rng x g s = charge realTMath x s := by
  simp [ch1, noise1, hz]

theorem ch2_zero_noise (rng : TRandom G ℝ) (hz : ∀ a b g, (rng.Gaus a b g).1 = 0)
    (x : ℝ) (g : G) (s : ℕ) : ch2 realTMath rng x g s = charge realTMath x s := by
  simp [ch2, noise2, hz]

end ZeroNoise

/-! ## The claims -/

section Claims

variable {K : Type} [LinearOrderedField K] {G : Type}

/-- C1 (evaluation at the failing input): for true position 0 and strip 3 the edges are
-0.5 and 0.5, the computed noise-free charge is erf(0.5), and this is strictly larger than
the standard normal value Phi(0.5) - Phi(-0.5) = erf(0.5 / sqrt 2): the charge profile that
is integrated has standard deviation 1/sqrt 2, not the declared sigmaM = 1. -/
theorem charge_ne_standard_normal :
    lowEdge 3 (0 : ℝ) = -0.5 ∧ highEdge 3 (0 : ℝ) = 0.5 ∧
    charge realTMath 0 3 = erf 0.5 ∧
    Phi (highEdge 3 0) - Phi (lowEdge 3 0) = erf (0.5 / √2) ∧
    Phi (highEdge 3 0) - Phi (lowEdge 3 0) < charge realTMath 0 3 := by
  have hl : lowEdge 3 (0 : ℝ) = -0.5 := by
    unfold lowEdge
    norm_num
  have hh : highEdge 3 (0 : ℝ) = 0.5 := by
    unfold highEdge
    norm_num
  have hc : charge realTMath 0 3 = erf 0.5 := by
    rw [charge_central]
    norm_num
  have hp : Phi (highEdge 3 0) - Phi (lowEdge 3 0) = erf (0.5 / √2) := by
    rw [hl, hh]
    unfold Phi
    rw [neg_div, erf_neg]
    ring
  refine ⟨hl, hh, hc, hp, ?_⟩
  rw [hp, hc]
  apply erf_strictMono
  have h2 : (1 : ℝ) < √2 := by
    rw [Real.lt_sqrt (by norm_num)]
    norm_num
  rw [div_lt_iff₀ (by positivity)]
  nlinarith

/-- C2: for a true position x with -0.5 ≤ x < 0.5 the noise-free charges of the seven
strips sum to (erf(3.5 - x) + erf(3.5 + x)) / 2, which is at most 1 and at least
1 - erfc(3); and erfc(3) is below 2.33e-5. -/
theorem charge_conservation (x : ℝ) (h1 : -0.5 ≤ x) (h2 : x < 0.5) :
    ∑ s in Finset.range 7, charge realTMath x s = (erf (3.5 - x) + erf (3.5 + x)) / 2 ∧
    ∑ s in Finset.range 7, charge realTMath x s ≤ 1 ∧
    1 - erfc 3 ≤ ∑ s in Finset.range 7, charge realTMath x s ∧
    erfc 3 < 0.0000233 := by
  have hsum : ∑ s in Finset.range 7, charge realTMath x s
      = (erf (3.5 - x) + erf (3.5 + x)) / 2 := by
    rw [charge_real_sum]
    have e1 : lowEdge 7 x = 3.5 - x := by
      unfold lowEdge
      norm_num
    have e2 : lowEdge 0 x = -(3.5 + x) := by
      unfold lowEdge
      norm_num
      ring
    rw [e1, e2, erf_neg]
    ring
  refine ⟨hsum, ?_, ?_, erfc_three_lt⟩
  · rw [hsum]
    have := erf_le_one (3.5 - x)
    have := erf_le_one (3.5 + x)
    linarith
  · rw [hsum, erfc_eq]
    have a1 := erf_strictMono.monotone (show (3 : ℝ) ≤ 3.5 - x by linarith)
    have a2 := erf_strictMono.monotone (show (3 : ℝ) ≤ 3.5 + x by linarith)
    linarith

/-- Witness for C2 at the true position 0. -/
theorem charge_conservation_witness :
    ∑ s in Finset.range 7, charge realTMath 0 s = (erf (3.5 - 0) + erf (3.5 + 0)) / 2 ∧
    ∑ s in Finset.range 7, charge realTMath 0 s ≤ 1 ∧
    1 - erfc 3 ≤ ∑ s in Finset.range 7, charge realTMath 0 s ∧
    erfc 3 < 0.0000233 :=
  charge_conservation 0 (by norm_num) (by norm_num)

/-- C3: for every real true position and every strip index (in particular 0..6) the
noise-free strip charge 1 - int0 - int1 is non-negative; more generally the branch-wise
value is non-negative for any pair of edges with lowEdge ≤ highEdge. -/
theorem charge_nonneg :
    (∀ (x : ℝ) (s : ℕ), 0 ≤ 1.0 - int0 realTMath (lowEdge s x) - int1 realTMath (highEdge s x)) ∧
    (∀ lo hi : ℝ, lo ≤ hi → 0 ≤ chargeOfEdges realTMath lo hi) := by
  constructor
  · intro x s
    exact charge_real_nonneg x s
  · intro lo hi h
    rw [chargeOfEdges_eq realTMath realTMath_lawful]
    have := erf_strictMono.monotone h
    have e : realTMath.Erf = erf := rfl
    rw [e]
    linarith

/-- C4: for either centroid model and every vector of noisy strip charges, the total
charge after thresholding is zero exactly when all 7 charges are strictly below the
threshold, and exactly then the unguarded division xTot/chTot has no finite value; the
same holds for the two divisions of the event body. -/
theorem chTot_zero_iff_all_below (ch : ℕ → K) (m : TMath K) (rng : TRandom G K) (x : K)
    (g : G) :
    ((sums thresh1 ch).chTot = 0 ↔ ∀ s < 7, ch s < thresh1) ∧
    (centroid thresh1 ch = none ↔ ∀ s < 7, ch s < thresh1) ∧
    ((sums thresh2 ch).chTot = 0 ↔ ∀ s < 7, ch s < thresh2) ∧
    (centroid thresh2 ch = none ↔ ∀ s < 7, ch s < thresh2) ∧
    (fdiv (stripLoop m rng x g).s1.xTot (stripLoop m rng x g).s1.chTot = none
      ↔ ∀ s < 7, ch1 m rng x g s < thresh1) ∧
    (fdiv (stripLoop m rng x g).s2.xTot (stripLoop m rng x g).s2.chTot = none
      ↔ ∀ s < 7, ch2 m rng x g s < thresh2) := by
  refine ⟨chTot_eq_zero_iff thresh1_pos ch 7, centroid_eq_none_iff thresh1_pos ch,
    chTot_eq_zero_iff thresh2_pos ch 7, centroid_eq_none_iff thresh2_pos ch, ?_, ?_⟩
  · rw [stripLoop_eq]
    exact centroid_eq_none_iff thresh1_pos _
  · rw [stripLoop_eq]
    exact centroid_eq_none_iff thresh2_pos _

/-- C5: the three-level readout is 0 when |x| < 1/3, +0.5 when |x| ≥ 1/3 and x > 0,
-0.5 when |x| ≥ 1/3 and x < 0 (so 1/3 gives +0.5 and -1/3 gives -0.5), and the value
filled into the Part b histogram is that estimate minus x. -/
theorem xmeasb_spec (m : TMath K) (rng : TRandom G K) (st : RunState G K) :
    (∀ x : K, |x| < 1 / 3 → xmeasb x = 0) ∧
    (∀ x : K, 1 / 3 ≤ |x| → 0 < x → xmeasb x = 0.5) ∧
    (∀ x : K, 1 / 3 ≤ |x| → x < 0 → xmeasb x = -0.5) ∧
    xmeasb (1 / 3 : K) = 0.5 ∧ xmeasb (-(1 / 3) : K) = -0.5 ∧
    (eventBody m rng st).histb.fills
      = st.histb.fills
          ++ [some (xmeasb (drawXtrue rng st.gen).1 - (drawXtrue rng st.gen).1)] := by
  have A : ∀ x : K, |x| < 1 / 3 → xmeasb x = 0 := by
    intro x h
    unfold xmeasb
    rw [one_third_eq, if_pos h]
  have B : ∀ x : K, 1 / 3 ≤ |x| → 0 < x → xmeasb x = 0.5 := by
    intro x h hx
    unfold xmeasb
    rw [one_third_eq, if_neg (not_lt.mpr h), if_pos hx]
  have C : ∀ x : K, 1 / 3 ≤ |x| → x < 0 → xmeasb x = -0.5 := by
    intro x h hx
    unfold xmeasb
    rw [one_third_eq, if_neg (not_lt.mpr h), if_neg (not_lt.mpr hx.le)]
  refine ⟨A, B, C, ?_, ?_, rfl⟩
  · apply B
    · rw [abs_of_pos (by norm_num)]
    · norm_num
  · apply C
    · rw [abs_neg, abs_of_pos (by norm_num)]
    · norm_num

/-- C6: the fixed-centre estimate is the constant 0, every event fills the Part a
histogram with minus its true position, and after the event loop the Part a fills are,
in order and hence as a multiset, the sign-flipped true positions of the events. -/
theorem fixed_center_error (m : TMath K) (rng : TRandom G K) (g : G) (numEvt : ℤ) :
    (xmeasa : K) = 0 ∧
    (∀ st : RunState G K, (eventBody m rng st).hista.fills
      = st.hista.fills ++ [some (-(drawXtrue rng st.gen).1)]) ∧
    (siliconResolution m rng g numEvt).hista.fills
      = (List.range numEvt.toNat).map (fun i => some (-(xtrueOf m rng g i))) ∧
    ((siliconResolution m rng g numEvt).hista.fills : Multiset (Option K))
      = Multiset.map (fun x => some (-x))
          (((List.range numEvt.toNat).map (xtrueOf m rng g) : List K) : Multiset K) := by
  refine ⟨rfl, ?_, runEvents_hista m rng g _, ?_⟩
  · intro st
    simp [eventBody, TH1F.Fill, xmeasa]
  · unfold siliconResolution
    rw [runEvents_hista, Multiset.map_coe, List.map_map]
    rfl

/-- C7: for every event count N ≥ 1, after the event loop each of the four histograms
has exactly N entries, whatever the generator produced. -/
theorem entries_eq_numEvt (m : TMath K) (rng : TRandom G K) (g : G) (numEvt : ℤ)
    (h : 1 ≤ numEvt) :
    ((siliconResolution m rng g numEvt).hista.GetEntries : ℤ) = numEvt ∧
    ((siliconResolution m rng g numEvt).histb.GetEntries : ℤ) = numEvt ∧
    ((siliconResolution m rng g numEvt).histc.GetEntries : ℤ) = numEvt ∧
    ((siliconResolution m rng g numEvt).histd.GetEntries : ℤ) = numEvt := by
  obtain ⟨ha, hb, hc, hd⟩ := runEvents_entries m rng g numEvt.toNat
  have e : ((numEvt.toNat : ℕ) : ℤ) = numEvt := Int.toNat_of_nonneg (by omega)
  unfold siliconResolution
  rw [ha, hb, hc, hd]
  exact ⟨e, e, e, e⟩

/-- Witness for C7: three events over the rationals with the constant generator. -/
theorem entries_eq_numEvt_witness :
    (1 : ℤ) ≤ 3 ∧
    ((siliconResolution (K := ℚ) ⟨id, fun t => 1 - t⟩ zeroRng () 3).hista.GetEntries : ℤ) = 3 ∧
    ((siliconResolution (K := ℚ) ⟨id, fun t => 1 - t⟩ zeroRng () 3).histb.GetEntries : ℤ) = 3 ∧
    ((siliconResolution (K := ℚ) ⟨id, fun t => 1 - t⟩ zeroRng () 3).histc.GetEntries : ℤ) = 3 ∧
    ((siliconResolution (K := ℚ) ⟨id, fun t => 1 - t⟩ zeroRng () 3).histd.GetEntries : ℤ) = 3 :=
  ⟨by decide, entries_eq_numEvt _ _ _ 3 (by decide)⟩

/-- C8: for every pair of edges, of any signs, the branch-wise erf/erfc computation gives
1 - int0 - int1 = (erf(highEdge) - erf(lowEdge)) / 2, that is the naive CDF difference
F(highEdge) - F(lowEdge) with F(t) = (1 + erf t)/2, from erfc = 1 - erf and erf odd only. -/
theorem branchwise_eq_cdf_difference (m : TMath K)
    (hodd : ∀ t, m.Erf (-t) = -m.Erf t) (hc : ∀ t, m.Erfc t = 1 - m.Erf t)
    (lowEdge highEdge : K) :
    1 - int0 m lowEdge - int1 m highEdge = (m.Erf highEdge - m.Erf lowEdge) / 2 ∧
    chargeOfEdges m lowEdge highEdge = naiveCharge m lowEdge highEdge := by
  have h := chargeOfEdges_eq m ⟨hodd, hc⟩ lowEdge highEdge
  constructor
  · rw [← h]
    unfold chargeOfEdges
    norm_num
  · rw [h]
    unfold naiveCharge naiveCdf
    ring

/-- Witness for C8: the real error functions, at the edges -1/2 and 1/2. -/
theorem branchwise_eq_cdf_difference_witness :
    1 - int0 realTMath (-1 / 2) - int1 realTMath (1 / 2)
        = (realTMath.Erf (1 / 2) - realTMath.Erf (-1 / 2)) / 2 ∧
    chargeOfEdges realTMath (-1 / 2) (1 / 2) = naiveCharge realTMath (-1 / 2) (1 / 2) :=
  branchwise_eq_cdf_difference realTMath erf_neg erfc_eq (-1 / 2) (1 / 2)

/-- C9: for either centroid model and noisy strip charges of which at least one reaches
the threshold, every thresholded charge is 0 or at least the (positive) threshold, and
the centroid xTot/chTot is a finite number that is a convex combination of the centres
-3 + s of the surviving strips: it lies between any lower and upper bound of the
surviving centres (so between the smallest and the largest), and in [-3, 3]. -/
theorem centroid_convex (thresh : K) (hth : thresh = thresh1 ∨ thresh = thresh2)
    (ch : ℕ → K) (hex : ∃ s < 7, thresh ≤ ch s) :
    0 < thresh ∧
    (∀ s, applyThresh thresh (ch s) = 0 ∨ thresh ≤ applyThresh thresh (ch s)) ∧
    ∃ c, centroid thresh ch = some c ∧
      (∃ w : ℕ → K, (∀ s, 0 ≤ w s) ∧ (∀ s, ch s < thresh → w s = 0) ∧
        ∑ s in Finset.range 7, w s = 1 ∧
        c = ∑ s in Finset.range 7, w s * (-3 + (s : K))) ∧
      (∀ lo hi : K, (∀ s < 7, thresh ≤ ch s → lo ≤ -3 + (s : K) ∧ -3 + (s : K) ≤ hi) →
        lo ≤ c ∧ c ≤ hi) ∧
      -3 ≤ c ∧ c ≤ 3 := by
  have ht : 0 < thresh := by
    rcases hth with h | h <;> rw [h]
    · exact thresh1_pos
    · exact thresh2_pos
  obtain ⟨s0, hs0, hch0⟩ := hex
  have hpos : 0 < (sums thresh ch).chTot := by
    have h1 := le_chTot ht ch 7 s0 hs0
    rcases applyThresh_cases thresh (ch s0) with ⟨hlt, _⟩ | ⟨_, he⟩
    · exact absurd hlt (not_lt.mpr hch0)
    · rw [he] at h1
      exact lt_of_lt_of_le (lt_of_lt_of_le ht hch0) h1
  have hbounds : ∀ lo hi : K,
      (∀ s < 7, thresh ≤ ch s → lo ≤ -3 + (s : K) ∧ -3 + (s : K) ≤ hi) →
      lo ≤ (sums thresh ch).xTot / (sums thresh ch).chTot ∧
        (sums thresh ch).xTot / (sums thresh ch).chTot ≤ hi := by
    intro lo hi h
    constructor
    · rw [le_div_iff₀ hpos]
      exact lo_mul_chTot_le ht ch 7 lo (fun s hs hc => (h s hs hc).1)
    · rw [div_le_iff₀ hpos]
      exact xTot_le_hi_mul ht ch 7 hi (fun s hs hc => (h s hs hc).2)
  refine ⟨ht, ?_, (sums thresh ch).xTot / (sums thresh ch).chTot, ?_, ?_, hbounds, ?_⟩
  · intro s
    rcases applyThresh_cases thresh (ch s) with ⟨_, h0⟩ | ⟨h1, he⟩
    · exact Or.inl h0
    · exact Or.inr (by rw [he]; exact h1)
  · unfold centroid
    exact fdiv_of_ne_zero _ hpos.ne'
  · refine ⟨fun s => applyThresh thresh (ch s) / (sums thresh ch).chTot, ?_, ?_, ?_, ?_⟩
    · intro s
      exact div_nonneg (applyThresh_nonneg ht (ch s)) hpos.le
    · intro s hs
      show applyThresh thresh (ch s) / (sums thresh ch).chTot = 0
      rw [(applyThresh_eq_zero_iff ht (ch s)).mpr hs, zero_div]
    · show ∑ s in Finset.range 7, applyThresh thresh (ch s) / (sums thresh ch).chTot = 1
      rw [← Finset.sum_div, ← chTot_sumsUpTo]
      exact div_self hpos.ne'
    · show (sums thresh ch).xTot / (sums thresh ch).chTot
        = ∑ s in Finset.range 7,
            applyThresh thresh (ch s) / (sums thresh ch).chTot * (-3 + (s : K))
      have hx : (sums thresh ch).xTot
          = ∑ s in Finset.range 7, applyThresh thresh (ch s) * (-3 + (s : K)) :=
        xTot_sumsUpTo thresh ch 7
      rw [hx, Finset.sum_div]
      apply Finset.sum_congr rfl
      intro s _
      ring
  · have h := hbounds (-3) 3 (fun s hs _ => by
      have h6 : (s : K) ≤ 6 := by exact_mod_cast Nat.lt_succ_iff.mp hs
      have h0 : (0 : K) ≤ (s : K) := Nat.cast_nonneg s
      constructor <;> linarith)
    exact h

/-- Witness for C9: model A over the rationals with every strip charge equal to 1. -/
theorem centroid_convex_witness :
    ∃ c : ℚ, centroid thresh1 (fun _ => (1 : ℚ)) = some c ∧ -3 ≤ c ∧ c ≤ 3 := by
  obtain ⟨_, _, c, hc, _, _, h3⟩ :=
    centroid_convex (thresh1 : ℚ) (Or.inl rfl) (fun _ => 1)
      ⟨0, by decide, by unfold thresh1; norm_num⟩
  exact ⟨c, hc, h3⟩

/-- C10: when every noise draw is zero and -0.5 ≤ x < 0.5, the central strip (index 3)
has charge (erf(0.5 - x) + erf(0.5 + x)) / 2 ≥ erf(1)/2 > 0.2, it passes both thresholds
unchanged, the totals satisfy chTot1 ≥ 0.2 and chTot2 ≥ 0.1, and neither centroid
division is a division by zero. -/
theorem central_strip_survives (rng : TRandom G ℝ)
    (hz : ∀ a b g, (rng.Gaus a b g).1 = 0) (g : G) (x : ℝ)
    (h1 : -0.5 ≤ x) (h2 : x < 0.5) :
    charge realTMath x 3 = (erf (0.5 - x) + erf (0.5 + x)) / 2 ∧
    erf 1 / 2 ≤ charge realTMath x 3 ∧ 0.2 < erf 1 / 2 ∧
    applyThresh thresh1 (ch1 realTMath rng x g 3) = charge realTMath x 3 ∧
    applyThresh thresh2 (ch2 realTMath rng x g 3) = charge realTMath x 3 ∧
    0.2 ≤ (stripLoop realTMath rng x g).s1.chTot ∧
    0.1 ≤ (stripLoop realTMath rng x g).s2.chTot ∧
    fdiv (stripLoop realTMath rng x g).s1.xTot (stripLoop realTMath rng x g).s1.chTot
      ≠ none ∧
    fdiv (stripLoop realTMath rng x g).s2.xTot (stripLoop realTMath rng x g).s2.chTot
      ≠ none := by
  have hge := charge_central_ge x h1 h2
  have hone : (0.2 : ℝ) < erf 1 / 2 := by
    have := erf_one_gt
    norm_num at this ⊢
    linarith
  have hq : (0.2 : ℝ) < charge realTMath x 3 := lt_of_lt_of_le hone hge
  have t1 : applyThresh thresh1 (ch1 realTMath rng x g 3) = charge realTMath x 3 := by
    rw [ch1_zero_noise rng hz]
    unfold applyThresh thresh1
    rw [if_neg (not_lt.mpr hq.le)]
  have t2 : applyThresh thresh2 (ch2 realTMath rng x g 3) = charge realTMath x 3 := by
    rw [ch2_zero_noise rng hz]
    unfold applyThresh thresh2
    rw [if_neg (not_lt.mpr (by linarith))]
  have c1 : (0.2 : ℝ) ≤ (stripLoop realTMath rng x g).s1.chTot := by
    rw [stripLoop_eq]
    have h := le_chTot thresh1_pos (ch1 realTMath rng x g) 7 3 (by decide)
    rw [t1] at h
    exact le_trans hq.le h
  have c2 : (0.1 : ℝ) ≤ (stripLoop realTMath rng x g).s2.chTot := by
    rw [stripLoop_eq]
    have h := le_chTot thresh2_pos (ch2 realTMath rng x g) 7 3 (by decide)
    rw [t2] at h
    exact le_trans (by linarith) h
  refine ⟨charge_central x, hge, hone, t1, t2, c1, c2, ?_, ?_⟩
  · rw [Ne, fdiv_eq_none_iff]
    intro h0
    rw [h0] at c1
    norm_num at c1
  · rw [Ne, fdiv_eq_none_iff]
    intro h0
    rw [h0] at c2
    norm_num at c2

/-- Witness for C10: the constant generator, true position 0. -/
theorem central_strip_survives_witness :
    (0.2 : ℝ) ≤ (stripLoop realTMath zeroRng 0 ()).s1.chTot ∧
    (0.1 : ℝ) ≤ (stripLoop realTMath zeroRng 0 ()).s2.chTot :=
  have h := central_strip_survives (zeroRng : TRandom Unit ℝ) (fun _ _ _ => rfl) () 0
    (by norm_num) (by norm_num)
  ⟨h.2.2.2.2.2.1, h.2.2.2.2.2.2.1⟩

end Claims

end SiliconResolution
